import Mathlib

/-!
Shallow embedding of the `wots` repository (Winternitz-Lamport-Diffie
one-time signatures) and proofs about it.

Bytes are modelled as `Nat`; a Go byte slice is a `List Nat`.  A Go
`hash.Hash` instance is modelled as a pure function from the complete byte
stream written into it (via `Write`) to the digest returned by `Sum(nil)`,
together with the declared output size (`Size()`); the code always either
uses a freshly created instance or calls `Reset` before reuse, so this is
faithful.  Go panics and non-termination are modelled by `Option`: `none`
means the call never returns a value (panic or infinite loop).
-/

namespace Wots

/-- A Go hash.Hash instance: `f` maps the full written byte stream to the
digest `Sum(nil)` would return, `size` is the declared `Size()`. -/
structure GoHash where
  f : List Nat → List Nat
  size : Nat

/-- The hash behaves like a real Go hash: every digest has exactly `size`
bytes, and every digest byte fits in a byte. -/
def GoHash.Wf (H : GoHash) : Prop :=
  (∀ x, (H.f x).length = H.size) ∧ ∀ x, ∀ b ∈ H.f x, b < 256

/-- The `Scheme` struct of wots.go.  The `io.Reader` field `rand` is
modelled as the finite list of bytes the random source can still supply. -/
structure Scheme where
  digestSize : Nat
  blockSize : Nat
  pubkeySize : Nat
  chainFunc : GoHash
  hashFunc : GoHash
  rand : List Nat

/-- NewScheme2 from wots.go: fills every field from the two hash factories;
performs no validation. -/
def NewScheme2 (h chainFunc : GoHash) (rand : List Nat) : Scheme :=
  { digestSize := h.size
    blockSize := chainFunc.size
    pubkeySize := h.size
    chainFunc := chainFunc
    hashFunc := h
    rand := rand }

/-- NewScheme from wots.go: the one-hash variant. -/
def NewScheme (h : GoHash) (rand : List Nat) : Scheme :=
  NewScheme2 h h rand

/-- PrivateKeySize from wots.go. -/
def Scheme.PrivateKeySize (s : Scheme) : Nat :=
  (s.digestSize + 2) * s.blockSize

/-- PublicKeySize from wots.go. -/
def Scheme.PublicKeySize (s : Scheme) : Nat :=
  s.pubkeySize

/-- SignatureSize from wots.go. -/
def Scheme.SignatureSize (s : Scheme) : Nat :=
  (s.digestSize + 2) * s.blockSize + s.digestSize

/-- The three error values the package can surface.  wots.go produces them
as distinct `errors.New` values; `randReadError` stands for whatever error
`io.ReadFull` propagates from the random source. -/
inductive WotsError where
  | wrongHashOutputSize
  | privateKeySizeMismatch
  | randReadError
deriving DecidableEq

/-- io.ReadFull(rand, buf) with len(buf) = n: succeeds iff the source can
supply n bytes, consuming the first n bytes of the modelled stream. -/
def readFull (rand : List Nat) (n : Nat) : Option (List Nat) :=
  if n ≤ rand.length then some (rand.take n) else none

/-- hashBlock from wots.go: copy the input, then run the loop
`for i := 0; i < times; i++ { out = h(out) }` (each iteration resets the
hash and hashes only the current running value). -/
def hashBlock (h : GoHash) (inp : List Nat) (times : Nat) : List Nat :=
  (List.range times).foldl (fun out _ => h.f out) inp

/-- Bounds-checked element assignment: Go `l[i] = v`, which panics (`none`)
when the index is out of range. -/
def setChecked (l : List Nat) (i v : Nat) : Option (List Nat) :=
  if i < l.length then some (l.set i v) else none

/-- The block loop of messageDigest (wots.go lines 144-150):
`for len(msg) >= rlen` XOR the next full r-sized block of msg with r and
feed it to the hash; returns (concatenation of the fed blocks, remaining
message).  The loop runs at most `msg.length` times whenever
`r.length ≥ 1`, so the fuel argument (instantiated with `msg.length`)
never runs out; for `r.length = 0` the Go loop never terminates, which the
caller models separately. -/
def mdLoop (r : List Nat) : Nat → List Nat → List Nat × List Nat
  | 0, msg => ([], msg)
  | fuel + 1, msg =>
    if msg.length < r.length then ([], msg)
    else
      let p := mdLoop r fuel (msg.drop r.length)
      (List.zipWith Nat.xor (msg.take r.length) r ++ p.1, p.2)

/-- The checksum loop of messageDigest (wots.go lines 166-169): a uint16
accumulator summing 256 - v over the digest bytes, wrapping mod 2^16. -/
def mdChecksum (d : List Nat) : Nat :=
  d.foldl (fun sum v => (sum + (256 - v)) % 65536) 0

/-- messageDigest from wots.go.  Returns `none` when the Go function never
returns: for `len(r) = 0` the block loop never exits, and the assignments
`tmp[len(msg)] = 0x80` / `tmp[1] = uint8(rlen)` panic when out of range
(the latter is reachable for `len(r) = 1`).  Otherwise returns the digest
of the written stream `r ‖ xored-blocks ‖ padded-final-block ‖
2-byte-big-endian-len(r)` followed by the 2-byte checksum. -/
def messageDigest (h : GoHash) (r msg : List Nat) : Option (List Nat) :=
  if r.length = 0 then none
  else
    let bl := mdLoop r msg.length msg
    let tmp0 := (bl.2 ++ List.replicate r.length 0).take r.length
    match setChecked tmp0 bl.2.length 128 with
    | none => none
    | some tmp1 =>
      if 2 ≤ r.length then
        let tmp2 := List.zipWith Nat.xor tmp1 r
        let d := h.f (r ++ bl.1 ++ tmp2 ++ [(r.length >>> 8) % 256, r.length % 256])
        some (d ++ [((mdChecksum d) >>> 8) % 256, (mdChecksum d) % 256])
      else none

/-- The full byte stream messageDigest feeds into the hash when it returns
normally: nonce, XORed full blocks, padded-and-XORed final block, 2-byte
big-endian nonce length.  Proved below to be exactly what `messageDigest`
hashes. -/
def mdStream (r msg : List Nat) : List Nat :=
  r ++ (mdLoop r msg.length msg).1 ++
    List.zipWith Nat.xor
      ((((mdLoop r msg.length msg).2 ++ List.replicate r.length 0).take r.length).set
        (mdLoop r msg.length msg).2.length 128) r ++
    [(r.length >>> 8) % 256, r.length % 256]

/-- The key-hashing loop of PublicKeyFromPrivate (wots.go lines 126-128):
`for i := 0; i < len(privateKey); i += blockSize` feeds the 256-fold
advancement of each blockSize-byte segment into the key hash.  The fuel
argument (instantiated with the key length) bounds the iteration count;
it suffices whenever blockSize ≥ 1, and when blockSize = 0 the checked key
length is 0 so the loop body never runs at all. -/
def keyHashLoop (chain : GoHash) (bs : Nat) : Nat → List Nat → List (List Nat)
  | 0, _ => []
  | fuel + 1, pk =>
    if pk.length = 0 then []
    else hashBlock chain (pk.take bs) 256 :: keyHashLoop chain bs fuel (pk.drop bs)

/-- PublicKeyFromPrivate from wots.go. -/
def Scheme.PublicKeyFromPrivate (s : Scheme) (privateKey : List Nat) :
    Except WotsError (List Nat) :=
  if privateKey.length ≠ s.PrivateKeySize then
    Except.error WotsError.privateKeySizeMismatch
  else
    Except.ok (s.hashFunc.f
      (keyHashLoop s.chainFunc s.blockSize privateKey.length privateKey).flatten)

/-- GenerateKeyPair from wots.go: validates the digest size lazily, draws
the private key from the random source, derives the public key. -/
def Scheme.GenerateKeyPair (s : Scheme) : Except WotsError (List Nat × List Nat) :=
  if s.digestSize < 16 ∨ 128 < s.digestSize then
    Except.error WotsError.wrongHashOutputSize
  else
    match readFull s.rand s.PrivateKeySize with
    | none => Except.error WotsError.randReadError
    | some privateKey =>
      match s.PublicKeyFromPrivate privateKey with
      | Except.error e => Except.error e
      | Except.ok publicKey => Except.ok (privateKey, publicKey)

/-- The signing loop of Sign (wots.go lines 194-197): for each digest byte
v, advance the next blockSize-byte private-key segment v steps and append
the result.  Go slices `privateKey[:blockSize]` / `privateKey[blockSize:]`;
under the key-length check of Sign the segments never run out (proved
below), so the unchecked `take`/`drop` is faithful on every reachable
input. -/
def signChains (chain : GoHash) (bs : Nat) : List Nat → List Nat → List Nat
  | [], _ => []
  | v :: d, pk =>
    hashBlock chain (pk.take bs) v ++ signChains chain bs d (pk.drop bs)

/-- Sign from wots.go.  The outer `Option` models a call that never
returns (a panic inside messageDigest, reachable only for digest sizes
below 2); the inner `Except` is the Go (sig, err) pair. -/
def Scheme.Sign (s : Scheme) (privateKey message : List Nat) :
    Option (Except WotsError (List Nat)) :=
  if privateKey.length ≠ s.PrivateKeySize then
    some (Except.error WotsError.privateKeySizeMismatch)
  else
    match readFull s.rand s.digestSize with
    | none => some (Except.error WotsError.randReadError)
    | some r =>
      match messageDigest s.hashFunc r message with
      | none => none
      | some d => some (Except.ok (r ++ signChains s.chainFunc s.blockSize d privateKey))

/-- The verification loop of Verify (wots.go lines 213-216): for each
digest byte v, advance the next blockSize-byte signature segment by
256 - v further steps and feed it to the key hash.  Go computes
`256 - int(v)` in int arithmetic and the chain loop runs zero times for a
non-positive count, which truncated Nat subtraction reproduces. -/
def verifyChains (chain : GoHash) (bs : Nat) : List Nat → List Nat → List Nat
  | [], _ => []
  | v :: d, sg =>
    hashBlock chain (sg.take bs) (256 - v) ++ verifyChains chain bs d (sg.drop bs)

/-- Verify from wots.go: false on any length mismatch, otherwise recompute
the randomized digest from the leading nonce and compare the rebuilt
public key.  `none` models the unreachable-for-valid-schemes panic inside
messageDigest (digest sizes below 2). -/
def Scheme.Verify (s : Scheme) (publicKey message sig : List Nat) : Option Bool :=
  if publicKey.length ≠ s.PublicKeySize ∨ sig.length ≠ s.SignatureSize then
    some false
  else
    match messageDigest s.hashFunc (sig.take s.digestSize) message with
    | none => none
    | some d =>
      some (decide (s.hashFunc.f
        (verifyChains s.chainFunc s.blockSize d (sig.drop s.digestSize)) = publicKey))

/-- A coherently built scheme: both hashes are well formed and the cached
size fields agree with them, exactly as NewScheme2 fills them. -/
def Scheme.Wf (s : Scheme) : Prop :=
  s.hashFunc.Wf ∧ s.chainFunc.Wf ∧
  s.digestSize = s.hashFunc.size ∧ s.pubkeySize = s.hashFunc.size ∧
  s.blockSize = s.chainFunc.size

/-! The superseded struct-based API (the unnamed older source file): the
`Scheme` there has a single hash and its `Sign` destroys the key. -/

/-- The Scheme struct of the superseded API. -/
structure OldScheme where
  blockSize : Nat
  hashFunc : GoHash
  rand : List Nat

/-- The PrivateKey struct of the superseded API. -/
structure OldPrivateKey where
  PublicKey : List Nat
  B : List Nat
deriving DecidableEq

/-- The signing loop of the superseded Sign: slicing `b[:blockSize]`
panics once the key bytes have been destroyed (nil slice, capacity 0), so
the slice bound is checked here; on every fresh key the bound holds. -/
def oldSignChains (chain : GoHash) (bs : Nat) : List Nat → List Nat → Option (List Nat)
  | [], _ => some []
  | v :: d, b =>
    if bs ≤ b.length then
      match oldSignChains chain bs d (b.drop bs) with
      | none => none
      | some rest => some (hashBlock chain (b.take bs) v ++ rest)
    else none

/-- Sign of the superseded API: returns the signature (or nil on random
source failure, leaving the key untouched) and the key as left behind by
the call — on success the key bytes are zeroed and the field set to nil,
modelled as the empty list.  The outer `Option` is `none` when the call
panics (in particular when signing with an already consumed key). -/
def OldScheme.Sign (s : OldScheme) (k : OldPrivateKey) (message : List Nat) :
    Option (Option (List Nat) × OldPrivateKey) :=
  match readFull s.rand s.blockSize with
  | none => some (none, k)
  | some r =>
    match messageDigest s.hashFunc r message with
    | none => none
    | some d =>
      match oldSignChains s.hashFunc s.blockSize d k.B with
      | none => none
      | some chains =>
        some (some (r ++ chains), { PublicKey := k.PublicKey, B := [] })

/-- Spec-side description of messageDigest, transcribed from the
specification text for comparison with the source translation: feed the
nonce, then each full nonce-sized block of the message XORed with the
nonce, then the final partial block padded with a single 0x80 byte and
zero fill and XORed with the nonce, then the 2-byte big-endian nonce
length; the result is the digest followed by the 2-byte big-endian
checksum `(sum of 256 - d[i]) mod 2^16`. -/
def messageDigestSpec (h : GoHash) (r msg : List Nat) : List Nat :=
  let rlen := r.length
  let nBlocks := msg.length / rlen
  let blocks := (List.range nBlocks).map
    (fun i => List.zipWith Nat.xor ((msg.drop (i * rlen)).take rlen) r)
  let rest := msg.drop (nBlocks * rlen)
  let padded := rest ++ [128] ++ List.replicate (rlen - rest.length - 1) 0
  let d := h.f (r ++ blocks.flatten ++ List.zipWith Nat.xor padded r ++
    [(rlen >>> 8) % 256, rlen % 256])
  let sum := (d.map (fun v => 256 - v)).sum % 65536
  d ++ [(sum >>> 8) % 256, sum % 256]

/-- A concrete well-formed 16-byte hash used to instantiate theorems. -/
def constHash16 : GoHash :=
  { f := fun _ => List.replicate 16 0, size := 16 }

/-- A concrete well-formed 2-byte hash used to instantiate theorems about
degenerate but reachable schemes. -/
def constHash2 : GoHash :=
  { f := fun _ => [0, 0], size := 2 }

/-- A concrete well-formed 8-byte hash (out of the supported key
generation range). -/
def constHash8 : GoHash :=
  { f := fun _ => List.replicate 8 0, size := 8 }

/-! Basic lemmas about the building blocks. -/

theorem hashBlock_zero (h : GoHash) (inp : List Nat) : hashBlock h inp 0 = inp :=
  rfl

theorem hashBlock_eq_iterate (h : GoHash) (inp : List Nat) (n : Nat) :
    hashBlock h inp n = h.f^[n] inp := by
  induction n with
  | zero => rfl
  | succ n ih =>
    show (List.range (n + 1)).foldl (fun out _ => h.f out) inp = _
    rw [List.range_succ, List.foldl_append]
    simp only [List.foldl_cons, List.foldl_nil]
    rw [Function.iterate_succ_apply']
    exact congrArg h.f ih

theorem hashBlock_length (h : GoHash) (hw : ∀ x, (h.f x).length = h.size)
    (inp : List Nat) (n : Nat) :
    (hashBlock h inp n).length = if n = 0 then inp.length else h.size := by
  cases n with
  | zero => rfl
  | succ n =>
    rw [hashBlock_eq_iterate, Function.iterate_succ_apply']
    simp [hw]

theorem hashBlock_comp (h : GoHash) (inp : List Nat) (a b : Nat) :
    hashBlock h (hashBlock h inp a) b = hashBlock h inp (b + a) := by
  rw [hashBlock_eq_iterate, hashBlock_eq_iterate, hashBlock_eq_iterate,
    Function.iterate_add_apply]

theorem mdLoop_rest_lt (r : List Nat) (hr : 1 ≤ r.length) :
    ∀ fuel msg, msg.length ≤ fuel → (mdLoop r fuel msg).2.length < r.length := by
  intro fuel
  induction fuel with
  | zero =>
    intro msg hm
    have hnil : msg = [] := List.eq_nil_of_length_eq_zero (Nat.le_zero.mp hm)
    subst hnil
    simpa [mdLoop] using hr
  | succ fuel ih =>
    intro msg hm
    by_cases hlt : msg.length < r.length
    · simp [mdLoop, hlt]
    · have hrec := ih (msg.drop r.length) (by simp [List.length_drop]; omega)
      simpa [mdLoop, hlt] using hrec

theorem mdLoop_eq_spec (r : List Nat) (hr : 1 ≤ r.length) :
    ∀ fuel msg, msg.length ≤ fuel →
      mdLoop r fuel msg =
        (((List.range (msg.length / r.length)).map
            (fun i => List.zipWith Nat.xor ((msg.drop (i * r.length)).take r.length) r)).flatten,
          msg.drop (msg.length / r.length * r.length)) := by
  intro fuel
  induction fuel with
  | zero =>
    intro msg hm
    have hnil : msg = [] := List.eq_nil_of_length_eq_zero (Nat.le_zero.mp hm)
    subst hnil
    simp [mdLoop]
  | succ fuel ih =>
    intro msg hm
    by_cases hlt : msg.length < r.length
    · have hq : msg.length / r.length = 0 := Nat.div_eq_of_lt hlt
      simp [mdLoop, hlt, hq]
    · have hle : r.length ≤ msg.length := Nat.le_of_not_lt hlt
      have hdl : (msg.drop r.length).length = msg.length - r.length := by
        simp [List.length_drop]
      have hfuel : (msg.drop r.length).length ≤ fuel := by omega
      have hq : msg.length / r.length = (msg.length - r.length) / r.length + 1 :=
        Nat.div_eq_sub_div (by omega) hle
      have ihd := ih (msg.drop r.length) hfuel
      show (if msg.length < r.length then ([], msg)
        else
          let p := mdLoop r fuel (msg.drop r.length)
          (List.zipWith Nat.xor (msg.take r.length) r ++ p.1, p.2)) = _
      rw [if_neg hlt]
      rw [ihd, hdl, hq]
      refine Prod.ext ?_ ?_
      · dsimp only
        rw [List.range_succ_eq_map, List.map_cons, List.flatten_cons, List.map_map]
        have h0 : List.zipWith Nat.xor ((msg.drop (0 * r.length)).take r.length) r =
            List.zipWith Nat.xor (msg.take r.length) r := by
          simp
        rw [h0]
        have hfun : (fun i => List.zipWith Nat.xor
              (((msg.drop r.length).drop (i * r.length)).take r.length) r) =
            ((fun i => List.zipWith Nat.xor ((msg.drop (i * r.length)).take r.length) r) ∘
              Nat.succ) := by
          funext i
          show List.zipWith Nat.xor (((msg.drop r.length).drop (i * r.length)).take r.length) r =
            List.zipWith Nat.xor ((msg.drop (Nat.succ i * r.length)).take r.length) r
          rw [List.drop_drop, Nat.succ_mul, Nat.add_comm (i * r.length) r.length]
        rw [hfun]
      · dsimp only
        rw [List.drop_drop, Nat.succ_mul, Nat.add_comm r.length _]

theorem mdChecksum_foldl (d : List Nat) :
    ∀ a, a < 65536 →
      d.foldl (fun sum v => (sum + (256 - v)) % 65536) a =
        (a + (d.map (fun v => 256 - v)).sum) % 65536 := by
  induction d with
  | nil =>
    intro a ha
    simp [Nat.mod_eq_of_lt ha]
  | cons v d ih =>
    intro a ha
    simp only [List.foldl_cons, List.map_cons, List.sum_cons]
    rw [ih _ (Nat.mod_lt _ (by omega))]
    rw [Nat.mod_add_mod, Nat.add_assoc]

theorem mdChecksum_eq_sum (d : List Nat) :
    mdChecksum d = (d.map (fun v => 256 - v)).sum % 65536 := by
  have h := mdChecksum_foldl d 0 (by omega)
  simpa [mdChecksum] using h

theorem pad_block_eq (r rest : List Nat) (hlt : rest.length < r.length) :
    ((rest ++ List.replicate r.length 0).take r.length).set rest.length 128 =
      rest ++ [128] ++ List.replicate (r.length - rest.length - 1) 0 := by
  have hsum : rest.length + (r.length - rest.length) = r.length := by omega
  have h1 : (rest ++ List.replicate r.length 0).take r.length =
      rest ++ List.replicate (r.length - rest.length) 0 := by
    have h2 := @List.take_append _ rest (List.replicate r.length 0) (r.length - rest.length)
    rw [hsum] at h2
    rw [h2, List.take_replicate]
    congr 2
    omega
  rw [h1, List.set_append, if_neg (lt_irrefl _), Nat.sub_self]
  have hk : r.length - rest.length = (r.length - rest.length - 1) + 1 := by omega
  rw [hk, List.replicate_succ, List.set_cons_zero, List.append_assoc]
  rfl

theorem messageDigest_eq_stream (h : GoHash) (r msg : List Nat) (h2 : 2 ≤ r.length) :
    messageDigest h r msg =
      some (h.f (mdStream r msg) ++
        [((mdChecksum (h.f (mdStream r msg))) >>> 8) % 256,
          (mdChecksum (h.f (mdStream r msg))) % 256]) := by
  have hrest := mdLoop_rest_lt r (by omega) msg.length msg (le_refl _)
  have hlen : ((((mdLoop r msg.length msg).2 ++ List.replicate r.length 0).take
      r.length)).length = r.length := by
    simp only [List.length_take, List.length_append, List.length_replicate]
    omega
  unfold messageDigest
  rw [if_neg (by omega)]
  simp only [setChecked]
  rw [if_pos (by rw [hlen]; exact hrest)]
  dsimp only
  rw [if_pos h2]
  rfl

theorem messageDigest_length (h : GoHash) (hw : ∀ x, (h.f x).length = h.size)
    (r msg d : List Nat) (h2 : 2 ≤ r.length)
    (hd : messageDigest h r msg = some d) : d.length = h.size + 2 := by
  rw [messageDigest_eq_stream h r msg h2] at hd
  have hd2 := Option.some.inj hd
  rw [← hd2]
  simp [hw]

theorem messageDigest_bytes (h : GoHash) (hw : GoHash.Wf h) (r msg d : List Nat)
    (h2 : 2 ≤ r.length) (hd : messageDigest h r msg = some d) :
    ∀ v ∈ d, v < 256 := by
  rw [messageDigest_eq_stream h r msg h2] at hd
  have hd2 := Option.some.inj hd
  rw [← hd2]
  intro v hv
  rcases List.mem_append.mp hv with hv1 | hv2
  · exact hw.2 _ v hv1
  · rcases List.mem_cons.mp hv2 with hv3 | hv4
    · rw [hv3]; exact Nat.mod_lt _ (by omega)
    · rcases List.mem_cons.mp hv4 with hv5 | hv6
      · rw [hv5]; exact Nat.mod_lt _ (by omega)
      · cases hv6

theorem mdStream_eq_spec (r msg : List Nat) (h2 : 2 ≤ r.length) :
    mdStream r msg =
      r ++ ((List.range (msg.length / r.length)).map
          (fun i => List.zipWith Nat.xor ((msg.drop (i * r.length)).take r.length) r)).flatten ++
        List.zipWith Nat.xor
          (msg.drop (msg.length / r.length * r.length) ++ [128] ++
            List.replicate
              (r.length - (msg.drop (msg.length / r.length * r.length)).length - 1) 0) r ++
        [(r.length >>> 8) % 256, r.length % 256] := by
  have hloop := mdLoop_eq_spec r (by omega) msg.length msg (le_refl _)
  have hrest := mdLoop_rest_lt r (by omega) msg.length msg (le_refl _)
  rw [hloop] at hrest
  unfold mdStream
  rw [hloop]
  dsimp only
  rw [pad_block_eq r _ hrest]

theorem messageDigest_eq_spec (h : GoHash) (r msg : List Nat) (h2 : 2 ≤ r.length) :
    messageDigest h r msg = some (messageDigestSpec h r msg) := by
  rw [messageDigest_eq_stream h r msg h2]
  unfold messageDigestSpec
  dsimp only
  rw [← mdStream_eq_spec r msg h2, mdChecksum_eq_sum]

theorem messageDigest_isSome (h : GoHash) (r msg : List Nat) (h2 : 2 ≤ r.length) :
    (messageDigest h r msg).isSome := by
  rw [messageDigest_eq_stream h r msg h2]
  rfl

theorem signChains_segments (chain : GoHash) (hw : ∀ x, (chain.f x).length = chain.size)
    (bs : Nat) (hbs : bs = chain.size) :
    ∀ d pk, pk.length = d.length * bs →
      ∃ segs : List (List Nat), signChains chain bs d pk = segs.flatten ∧
        segs.length = d.length ∧ ∀ b ∈ segs, b.length = bs := by
  intro d
  induction d with
  | nil =>
    intro pk hpk
    exact ⟨[], by simp [signChains], by simp, by simp⟩
  | cons v d ih =>
    intro pk hpk
    have hpkbs : bs ≤ pk.length := by
      rw [hpk, List.length_cons, Nat.succ_mul]; omega
    have hseg : (hashBlock chain (pk.take bs) v).length = bs := by
      rw [hashBlock_length chain hw]
      by_cases hv : v = 0
      · rw [if_pos hv, List.length_take]
        omega
      · rw [if_neg hv, hbs]
    have hdrop : (pk.drop bs).length = d.length * bs := by
      rw [List.length_drop, hpk, List.length_cons, Nat.succ_mul]; omega
    obtain ⟨segs, hs, hl, hall⟩ := ih (pk.drop bs) hdrop
    refine ⟨hashBlock chain (pk.take bs) v :: segs, ?_, by simp [hl], ?_⟩
    · show hashBlock chain (pk.take bs) v ++ signChains chain bs d (pk.drop bs) = _
      rw [hs, List.flatten_cons]
    · intro b hb
      rcases List.mem_cons.mp hb with hb1 | hb2
      · rw [hb1]; exact hseg
      · exact hall b hb2

theorem signChains_length (chain : GoHash) (hw : ∀ x, (chain.f x).length = chain.size)
    (bs : Nat) (hbs : bs = chain.size) (d pk : List Nat)
    (hpk : pk.length = d.length * bs) :
    (signChains chain bs d pk).length = d.length * bs := by
  obtain ⟨segs, hs, hl, hall⟩ := signChains_segments chain hw bs hbs d pk hpk
  rw [hs, List.length_flatten]
  have hrep : segs.map List.length = List.replicate d.length bs := by
    rw [List.eq_replicate_iff]
    refine ⟨by simp [hl], ?_⟩
    intro b hb
    obtain ⟨a, ha, rfl⟩ := List.mem_map.mp hb
    exact hall a ha
  rw [hrep, List.sum_replicate, smul_eq_mul]

theorem verifyChains_signChains (chain : GoHash) (hw : ∀ x, (chain.f x).length = chain.size)
    (bs : Nat) (hbs : bs = chain.size) (hbs1 : 1 ≤ bs) :
    ∀ d pk fuel, pk.length = d.length * bs → d.length ≤ fuel → (∀ v ∈ d, v < 256) →
      verifyChains chain bs d (signChains chain bs d pk) =
        (keyHashLoop chain bs fuel pk).flatten := by
  intro d
  induction d with
  | nil =>
    intro pk fuel hpk _ _
    have hnil : pk = [] := List.eq_nil_of_length_eq_zero (by simpa using hpk)
    subst hnil
    cases fuel <;> simp [verifyChains, signChains, keyHashLoop]
  | cons v d ih =>
    intro pk fuel hpk hfuel hb
    rw [List.length_cons] at hpk hfuel
    obtain ⟨fu, rfl⟩ : ∃ fu, fuel = fu + 1 := ⟨fuel - 1, by omega⟩
    have hpkbs : bs ≤ pk.length := by
      rw [hpk, Nat.succ_mul]; omega
    have hseg : (hashBlock chain (pk.take bs) v).length = bs := by
      rw [hashBlock_length chain hw]
      by_cases hv : v = 0
      · rw [if_pos hv, List.length_take]
        omega
      · rw [if_neg hv, hbs]
    have hdrop : (pk.drop bs).length = d.length * bs := by
      rw [List.length_drop, hpk, Nat.succ_mul]; omega
    have hpknil : ¬ pk.length = 0 := by omega
    show hashBlock chain
        ((hashBlock chain (pk.take bs) v ++ signChains chain bs d (pk.drop bs)).take bs)
        (256 - v) ++
      verifyChains chain bs d
        ((hashBlock chain (pk.take bs) v ++ signChains chain bs d (pk.drop bs)).drop bs) = _
    rw [List.take_left' hseg, List.drop_left' hseg, hashBlock_comp,
      Nat.sub_add_cancel (Nat.le_of_lt (hb v (List.mem_cons_self v d)))]
    rw [ih (pk.drop bs) fu hdrop (by omega)
      (fun w hw2 => hb w (List.mem_cons_of_mem v hw2))]
    show _ = (keyHashLoop chain bs (fu + 1) pk).flatten
    rw [keyHashLoop, if_neg hpknil, List.flatten_cons]

theorem NewScheme2_Wf (h c : GoHash) (rd : List Nat) (hh : GoHash.Wf h)
    (hc : GoHash.Wf c) : (NewScheme2 h c rd).Wf :=
  ⟨hh, hc, rfl, rfl, rfl⟩

theorem constHash16_Wf : GoHash.Wf constHash16 :=
  ⟨fun _ => rfl, fun _ b hb => by
    have hb0 := List.eq_of_mem_replicate hb
    omega⟩

theorem constHash2_Wf : GoHash.Wf constHash2 :=
  ⟨fun _ => rfl, fun _ b hb => by
    rcases List.mem_cons.mp hb with h1 | h2
    · omega
    · rcases List.mem_cons.mp h2 with h3 | h4
      · omega
      · cases h4⟩

theorem constHash8_Wf : GoHash.Wf constHash8 :=
  ⟨fun _ => rfl, fun _ b hb => by
    have hb0 := List.eq_of_mem_replicate hb
    omega⟩

theorem sum_sub_bounds (d : List Nat) (hb : ∀ v ∈ d, v < 256) :
    d.length ≤ (d.map (fun v => 256 - v)).sum ∧
      (d.map (fun v => 256 - v)).sum ≤ 256 * d.length := by
  induction d with
  | nil => simp
  | cons v d ih =>
    have hv := hb v (List.mem_cons_self v d)
    obtain ⟨l, u⟩ := ih (fun w hw => hb w (List.mem_cons_of_mem v hw))
    simp only [List.map_cons, List.sum_cons, List.length_cons]
    omega

/-! Claim theorems. -/

/-- C8: for every hash, block and n, hashBlock equals the n-fold iterated
hash, each iteration hashing only the current running value; for n = 0 it
returns the input block unmodified. -/
theorem hashBlock_iterates (h : GoHash) (block : List Nat) (n : Nat) :
    hashBlock h block n = h.f^[n] block ∧ hashBlock h block 0 = block :=
  ⟨hashBlock_eq_iterate h block n, rfl⟩

/-- C9: for every nonce with at least 2 bytes and every message, every
buffer access in messageDigest is in bounds and the function terminates:
the block loop always leaves fewer than len(r) message bytes, and
messageDigest returns a value (no write panics). -/
theorem messageDigest_safe (h : GoHash) (r msg : List Nat) (h2 : 2 ≤ r.length) :
    (mdLoop r msg.length msg).2.length < r.length ∧
      (messageDigest h r msg).isSome :=
  ⟨mdLoop_rest_lt r (by omega) msg.length msg (le_refl _),
    messageDigest_isSome h r msg h2⟩

/-- Witness for C9 at a concrete nonce and message. -/
theorem messageDigest_safe_witness :
    (mdLoop [0, 0] [5].length [5]).2.length < [0, 0].length ∧
      (messageDigest constHash2 [0, 0] [5]).isSome :=
  messageDigest_safe constHash2 [0, 0] [5] (by decide)

/-- C10: for every nonempty digest of at most 128 bytes (as key generation
guarantees), the checksum computed in messageDigest equals the exact sum
of 256 - d[i], which lies between len(d) and 256 * len(d) ≤ 32768, so the
mod-2^16 reduction never wraps, the two appended bytes encode the exact
sum, and the checksum is never zero. -/
theorem mdChecksum_bounds (d : List Nat) (h1 : 1 ≤ d.length) (h128 : d.length ≤ 128)
    (hb : ∀ v ∈ d, v < 256) :
    mdChecksum d = (d.map (fun v => 256 - v)).sum ∧
    d.length ≤ (d.map (fun v => 256 - v)).sum ∧
    (d.map (fun v => 256 - v)).sum ≤ 256 * d.length ∧
    256 * d.length ≤ 32768 ∧
    ((mdChecksum d) >>> 8) % 256 * 256 + (mdChecksum d) % 256 =
      (d.map (fun v => 256 - v)).sum ∧
    mdChecksum d ≠ 0 := by
  obtain ⟨hlo, hhi⟩ := sum_sub_bounds d hb
  have hlt : (d.map (fun v => 256 - v)).sum < 65536 := by omega
  have hcs : mdChecksum d = (d.map (fun v => 256 - v)).sum := by
    rw [mdChecksum_eq_sum, Nat.mod_eq_of_lt hlt]
  refine ⟨hcs, hlo, hhi, by omega, ?_, by omega⟩
  rw [hcs, Nat.shiftRight_eq_div_pow]
  have hdiv : (d.map (fun v => 256 - v)).sum / 2 ^ 8 < 256 :=
    Nat.div_lt_of_lt_mul (by omega)
  rw [Nat.mod_eq_of_lt hdiv]
  have hdm := Nat.div_add_mod ((d.map (fun v => 256 - v)).sum) 256
  have h28 : (2 : Nat) ^ 8 = 256 := by norm_num
  rw [h28]
  omega

/-- Witness for C10 at a concrete 16-byte digest. -/
theorem mdChecksum_bounds_witness :
    mdChecksum (List.replicate 16 0) =
      ((List.replicate 16 0).map (fun v => 256 - v)).sum ∧
    (List.replicate 16 0).length ≤ ((List.replicate 16 0).map (fun v => 256 - v)).sum ∧
    ((List.replicate 16 0).map (fun v => 256 - v)).sum ≤ 256 * (List.replicate 16 0).length ∧
    256 * (List.replicate 16 0).length ≤ 32768 ∧
    ((mdChecksum (List.replicate 16 0)) >>> 8) % 256 * 256 +
        (mdChecksum (List.replicate 16 0)) % 256 =
      ((List.replicate 16 0).map (fun v => 256 - v)).sum ∧
    mdChecksum (List.replicate 16 0) ≠ 0 :=
  mdChecksum_bounds (List.replicate 16 0) (by decide) (by decide) (by decide)

/-- C4: for every scheme whose digest size is at least 2 (as every scheme
usable for key generation is), Verify always returns a boolean, and it
returns false whenever the public key length differs from PublicKeySize()
or the signature length differs from SignatureSize(). -/
theorem verify_no_error (s : Scheme) (publicKey message sig : List Nat)
    (hds : 2 ≤ s.digestSize) :
    (∃ b, s.Verify publicKey message sig = some b) ∧
    ((publicKey.length ≠ s.PublicKeySize ∨ sig.length ≠ s.SignatureSize) →
      s.Verify publicKey message sig = some false) := by
  constructor
  · by_cases hlen : publicKey.length ≠ s.PublicKeySize ∨ sig.length ≠ s.SignatureSize
    · refine ⟨false, ?_⟩
      unfold Scheme.Verify
      rw [if_pos hlen]
    · have hsig : sig.length = s.SignatureSize := by
        rcases not_or.mp hlen with ⟨_, h⟩
        exact not_not.mp h
      have hr : 2 ≤ (sig.take s.digestSize).length := by
        rw [List.length_take, hsig]
        unfold Scheme.SignatureSize
        omega
      obtain ⟨d, hd⟩ := Option.isSome_iff_exists.mp
        (messageDigest_isSome s.hashFunc (sig.take s.digestSize) message hr)
      have hv : s.Verify publicKey message sig =
          some (decide (s.hashFunc.f (verifyChains s.chainFunc s.blockSize d
            (sig.drop s.digestSize)) = publicKey)) := by
        unfold Scheme.Verify
        rw [if_neg hlen, hd]
      exact ⟨_, hv⟩
  · intro hlen
    unfold Scheme.Verify
    rw [if_pos hlen]

/-- Witness for C4 at a concrete scheme and mismatched inputs. -/
theorem verify_no_error_witness :
    (∃ b, (NewScheme2 constHash2 constHash2 []).Verify [] [] [] = some b) ∧
    ((([] : List Nat)).length ≠ (NewScheme2 constHash2 constHash2 []).PublicKeySize ∨
        (([] : List Nat)).length ≠ (NewScheme2 constHash2 constHash2 []).SignatureSize →
      (NewScheme2 constHash2 constHash2 []).Verify [] [] [] = some false) :=
  verify_no_error (NewScheme2 constHash2 constHash2 []) [] [] [] (by decide)

/-- C2: for every nonce of length at least 2 and every message,
messageDigest feeds into the hash exactly the nonce, each full nonce-sized
block of the message XORed with the nonce, the final partial block padded
with 0x80 and zero fill and XORed with the nonce, and the 2-byte
big-endian nonce length; it returns the digest followed by the 2-byte
big-endian checksum (sum of 256 - d[i] mod 2^16), so the output length is
the hash output length plus 2. -/
theorem messageDigest_matches_spec (h : GoHash) (r msg : List Nat) (h2 : 2 ≤ r.length) :
    messageDigest h r msg = some (messageDigestSpec h r msg) ∧
    ((∀ x, (h.f x).length = h.size) →
      ∀ d, messageDigest h r msg = some d → d.length = h.size + 2) :=
  ⟨messageDigest_eq_spec h r msg h2,
    fun hw d hd => messageDigest_length h hw r msg d h2 hd⟩

/-- Witness for C2 at a concrete nonce and message. -/
theorem messageDigest_matches_spec_witness :
    messageDigest constHash2 [0, 0] [1, 2, 3] =
      some (messageDigestSpec constHash2 [0, 0] [1, 2, 3]) ∧
    ((∀ x, (constHash2.f x).length = constHash2.size) →
      ∀ d, messageDigest constHash2 [0, 0] [1, 2, 3] = some d →
        d.length = constHash2.size + 2) :=
  messageDigest_matches_spec constHash2 [0, 0] [1, 2, 3] (by decide)

/-- C1: for every well-formed scheme (with the digest size at least 2 and
a positive chain block size, as for every scheme whose key generation can
succeed) and every private key of length PrivateKeySize() and every
message, signing (with the nonce drawn from the random source) succeeds
and verifying the signature with the public key returned by
PublicKeyFromPrivate for the same key and message returns true. -/
theorem sign_then_verify (s : Scheme) (privateKey message : List Nat)
    (hwf : s.Wf) (hds : 2 ≤ s.digestSize) (hbs : 1 ≤ s.blockSize)
    (hkey : privateKey.length = s.PrivateKeySize)
    (hrand : s.digestSize ≤ s.rand.length) :
    ∃ sig publicKey,
      s.Sign privateKey message = some (Except.ok sig) ∧
      s.PublicKeyFromPrivate privateKey = Except.ok publicKey ∧
      s.Verify publicKey message sig = some true := by
  obtain ⟨hhw, hcw, hdsz, hpsz, hbsz⟩ := hwf
  have hread : readFull s.rand s.digestSize = some (s.rand.take s.digestSize) := by
    unfold readFull
    rw [if_pos hrand]
  have hrlen : (s.rand.take s.digestSize).length = s.digestSize := by
    rw [List.length_take]
    omega
  have h2r : 2 ≤ (s.rand.take s.digestSize).length := by omega
  obtain ⟨d, hd⟩ := Option.isSome_iff_exists.mp
    (messageDigest_isSome s.hashFunc (s.rand.take s.digestSize) message h2r)
  have hdlen : d.length = s.digestSize + 2 := by
    rw [messageDigest_length s.hashFunc hhw.1 _ message d h2r hd, hdsz]
  have hdbytes : ∀ v ∈ d, v < 256 :=
    messageDigest_bytes s.hashFunc hhw _ message d h2r hd
  have hsign : s.Sign privateKey message =
      some (Except.ok (s.rand.take s.digestSize ++
        signChains s.chainFunc s.blockSize d privateKey)) := by
    unfold Scheme.Sign
    rw [if_neg (not_not_intro hkey), hread]
    dsimp only
    rw [hd]
  have hpk2 : privateKey.length = d.length * s.blockSize := by
    rw [hkey, hdlen]
    rfl
  have hpub : s.PublicKeyFromPrivate privateKey =
      Except.ok (s.hashFunc.f
        (keyHashLoop s.chainFunc s.blockSize privateKey.length privateKey).flatten) := by
    unfold Scheme.PublicKeyFromPrivate
    rw [if_neg (not_not_intro hkey)]
  refine ⟨_, _, hsign, hpub, ?_⟩
  have hchainlen : (signChains s.chainFunc s.blockSize d privateKey).length =
      d.length * s.blockSize :=
    signChains_length s.chainFunc hcw.1 s.blockSize hbsz d privateKey hpk2
  have hsiglen : (s.rand.take s.digestSize ++
      signChains s.chainFunc s.blockSize d privateKey).length = s.SignatureSize := by
    rw [List.length_append, hrlen, hchainlen, hdlen]
    unfold Scheme.SignatureSize
    ring
  have hpublen : (s.hashFunc.f
      (keyHashLoop s.chainFunc s.blockSize privateKey.length privateKey).flatten).length =
      s.PublicKeySize := by
    rw [hhw.1]
    unfold Scheme.PublicKeySize
    rw [hpsz]
  unfold Scheme.Verify
  rw [if_neg (by
    rw [not_or, not_not, not_not]
    exact ⟨hpublen, hsiglen⟩)]
  rw [List.take_left' hrlen, hd]
  dsimp only
  rw [List.drop_left' hrlen]
  have hfuel : d.length ≤ privateKey.length := by
    have h1 : d.length * 1 ≤ d.length * s.blockSize := Nat.mul_le_mul_left d.length hbs
    rw [Nat.mul_one] at h1
    omega
  rw [verifyChains_signChains s.chainFunc hcw.1 s.blockSize hbsz hbs d privateKey
    privateKey.length hpk2 hfuel hdbytes]
  simp

/-- Witness for C1 at a concrete scheme, private key and message. -/
theorem sign_then_verify_witness :
    ∃ sig publicKey,
      (NewScheme2 constHash2 constHash2 [0, 0]).Sign (List.replicate 8 0) [1, 2, 3] =
        some (Except.ok sig) ∧
      (NewScheme2 constHash2 constHash2 [0, 0]).PublicKeyFromPrivate (List.replicate 8 0) =
        Except.ok publicKey ∧
      (NewScheme2 constHash2 constHash2 [0, 0]).Verify publicKey [1, 2, 3] sig =
        some true :=
  sign_then_verify (NewScheme2 constHash2 constHash2 [0, 0]) (List.replicate 8 0) [1, 2, 3]
    (NewScheme2_Wf constHash2 constHash2 [0, 0] constHash2_Wf constHash2_Wf)
    (by decide) (by decide) (by decide) (by decide)

/-- C5: for every configured hash output size, PrivateKeySize() equals
(digestSize+2)*chainBlockSize, PublicKeySize() equals digestSize, and
SignatureSize() equals digestSize + (digestSize+2)*chainBlockSize; and
for every well-formed scheme in the supported range, GenerateKeyPair and
Sign return byte strings of exactly these lengths, with the signature
laid out as the digestSize-byte nonce followed by digestSize+2 chain
segments of chainBlockSize bytes each. -/
theorem sizes_and_layout (h c : GoHash) (rd : List Nat) (s : Scheme)
    (privateKey message : List Nat)
    (hwf : s.Wf) (hds16 : 16 ≤ s.digestSize) (hds128 : s.digestSize ≤ 128)
    (hbs : 1 ≤ s.blockSize)
    (hkey : privateKey.length = s.PrivateKeySize)
    (hrandK : s.PrivateKeySize ≤ s.rand.length) :
    (NewScheme2 h c rd).PrivateKeySize = (h.size + 2) * c.size ∧
    (NewScheme2 h c rd).PublicKeySize = h.size ∧
    (NewScheme2 h c rd).SignatureSize = h.size + (h.size + 2) * c.size ∧
    (∃ pk pub, s.GenerateKeyPair = Except.ok (pk, pub) ∧
      pk.length = s.PrivateKeySize ∧ pub.length = s.PublicKeySize) ∧
    (∃ sig, s.Sign privateKey message = some (Except.ok sig) ∧
      sig.length = s.SignatureSize ∧
      ∃ segs : List (List Nat),
        sig = s.rand.take s.digestSize ++ segs.flatten ∧
        segs.length = s.digestSize + 2 ∧ ∀ b ∈ segs, b.length = s.blockSize) := by
  obtain ⟨hhw, hcw, hdsz, hpsz, hbsz⟩ := hwf
  have hPKbound : s.digestSize + 2 ≤ s.PrivateKeySize := by
    have h1 : (s.digestSize + 2) * 1 ≤ (s.digestSize + 2) * s.blockSize :=
      Nat.mul_le_mul_left (s.digestSize + 2) hbs
    rw [Nat.mul_one] at h1
    exact h1
  refine ⟨rfl, rfl, ?_, ?_, ?_⟩
  · show (h.size + 2) * c.size + h.size = h.size + (h.size + 2) * c.size
    ring
  · -- GenerateKeyPair
    have hreadK : readFull s.rand s.PrivateKeySize =
        some (s.rand.take s.PrivateKeySize) := by
      unfold readFull
      rw [if_pos hrandK]
    have hpklen : (s.rand.take s.PrivateKeySize).length = s.PrivateKeySize := by
      rw [List.length_take]
      omega
    refine ⟨s.rand.take s.PrivateKeySize,
      s.hashFunc.f (keyHashLoop s.chainFunc s.blockSize
        (s.rand.take s.PrivateKeySize).length (s.rand.take s.PrivateKeySize)).flatten,
      ?_, hpklen, ?_⟩
    · unfold Scheme.GenerateKeyPair
      rw [if_neg (by omega), hreadK]
      dsimp only
      unfold Scheme.PublicKeyFromPrivate
      rw [if_neg (not_not_intro hpklen)]
    · rw [hhw.1]
      show s.hashFunc.size = s.PublicKeySize
      unfold Scheme.PublicKeySize
      rw [hpsz]
  · -- Sign
    have hrand : s.digestSize ≤ s.rand.length := by
      unfold Scheme.PrivateKeySize at hrandK hPKbound
      omega
    have hread : readFull s.rand s.digestSize = some (s.rand.take s.digestSize) := by
      unfold readFull
      rw [if_pos hrand]
    have hrlen : (s.rand.take s.digestSize).length = s.digestSize := by
      rw [List.length_take]
      omega
    have h2r : 2 ≤ (s.rand.take s.digestSize).length := by omega
    obtain ⟨d, hd⟩ := Option.isSome_iff_exists.mp
      (messageDigest_isSome s.hashFunc (s.rand.take s.digestSize) message h2r)
    have hdlen : d.length = s.digestSize + 2 := by
      rw [messageDigest_length s.hashFunc hhw.1 _ message d h2r hd, hdsz]
    have hpk2 : privateKey.length = d.length * s.blockSize := by
      rw [hkey, hdlen]
      rfl
    obtain ⟨segs, hsegs, hsegl, hsegall⟩ :=
      signChains_segments s.chainFunc hcw.1 s.blockSize hbsz d privateKey hpk2
    refine ⟨s.rand.take s.digestSize ++ signChains s.chainFunc s.blockSize d privateKey,
      ?_, ?_, segs, by rw [hsegs], by rw [hsegl, hdlen], hsegall⟩
    · unfold Scheme.Sign
      rw [if_neg (not_not_intro hkey), hread]
      dsimp only
      rw [hd]
    · rw [List.length_append, hrlen,
        signChains_length s.chainFunc hcw.1 s.blockSize hbsz d privateKey hpk2, hdlen]
      unfold Scheme.SignatureSize
      ring

set_option maxRecDepth 8000 in
/-- Witness for C5 at a concrete scheme, private key and message. -/
theorem sizes_and_layout_witness :
    (NewScheme2 constHash2 constHash2 []).PrivateKeySize =
      (constHash2.size + 2) * constHash2.size ∧
    (NewScheme2 constHash2 constHash2 []).PublicKeySize = constHash2.size ∧
    (NewScheme2 constHash2 constHash2 []).SignatureSize =
      constHash2.size + (constHash2.size + 2) * constHash2.size ∧
    (∃ pk pub, (NewScheme2 constHash16 constHash16 (List.replicate 288 0)).GenerateKeyPair =
        Except.ok (pk, pub) ∧
      pk.length = (NewScheme2 constHash16 constHash16 (List.replicate 288 0)).PrivateKeySize ∧
      pub.length = (NewScheme2 constHash16 constHash16 (List.replicate 288 0)).PublicKeySize) ∧
    (∃ sig, (NewScheme2 constHash16 constHash16 (List.replicate 288 0)).Sign
        (List.replicate 288 0) [7] = some (Except.ok sig) ∧
      sig.length = (NewScheme2 constHash16 constHash16 (List.replicate 288 0)).SignatureSize ∧
      ∃ segs : List (List Nat),
        sig = (List.replicate 288 0).take
            (NewScheme2 constHash16 constHash16 (List.replicate 288 0)).digestSize ++
          segs.flatten ∧
        segs.length = (NewScheme2 constHash16 constHash16 (List.replicate 288 0)).digestSize + 2 ∧
        ∀ b ∈ segs, b.length =
          (NewScheme2 constHash16 constHash16 (List.replicate 288 0)).blockSize) :=
  sizes_and_layout constHash2 constHash2 []
    (NewScheme2 constHash16 constHash16 (List.replicate 288 0))
    (List.replicate 288 0) [7]
    (NewScheme2_Wf constHash16 constHash16 (List.replicate 288 0) constHash16_Wf constHash16_Wf)
    (by decide) (by decide) (by decide) (by decide) (by decide)

/-- C6: scheme construction performs no validation and always succeeds
(NewScheme2 is a total construction whose sizes are queryable for any
hash), and GenerateKeyPair fails with the invalid-parameter error if and
only if the configured hash output size is below 16 or above 128; in
particular a scheme built from an 8-byte-output hash can be constructed
and queried for sizes, but its key generation always fails with that
error. -/
theorem generateKeyPair_validation (s : Scheme) (h c : GoHash) (rd : List Nat)
    (h8 : h.size = 8) :
    (s.GenerateKeyPair = Except.error WotsError.wrongHashOutputSize ↔
      (s.digestSize < 16 ∨ 128 < s.digestSize)) ∧
    (NewScheme2 h c rd).PrivateKeySize = 10 * c.size ∧
    (NewScheme2 h c rd).GenerateKeyPair = Except.error WotsError.wrongHashOutputSize := by
  refine ⟨⟨?_, ?_⟩, ?_, ?_⟩
  · intro hgen
    by_contra hrange
    rw [not_or, not_lt, not_lt] at hrange
    unfold Scheme.GenerateKeyPair at hgen
    rw [if_neg (by omega)] at hgen
    cases hcase : readFull s.rand s.PrivateKeySize with
    | none =>
      rw [hcase] at hgen
      simp at hgen
    | some pk =>
      rw [hcase] at hgen
      have hpklen : pk.length = s.PrivateKeySize := by
        unfold readFull at hcase
        by_cases hle : s.PrivateKeySize ≤ s.rand.length
        · rw [if_pos hle] at hcase
          obtain rfl := Option.some.inj hcase
          rw [List.length_take]
          omega
        · rw [if_neg hle] at hcase
          cases hcase
      dsimp only at hgen
      unfold Scheme.PublicKeyFromPrivate at hgen
      rw [if_neg (not_not_intro hpklen)] at hgen
      simp at hgen
  · intro hrange
    unfold Scheme.GenerateKeyPair
    rw [if_pos hrange]
  · show (h.size + 2) * c.size = 10 * c.size
    rw [h8]
  · unfold Scheme.GenerateKeyPair
    rw [if_pos (Or.inl (by show h.size < 16; omega))]

/-- Witness for C6 at a concrete 8-byte-output hash. -/
theorem generateKeyPair_validation_witness :
    ((NewScheme2 constHash8 constHash8 []).GenerateKeyPair =
        Except.error WotsError.wrongHashOutputSize ↔
      ((NewScheme2 constHash8 constHash8 []).digestSize < 16 ∨
        128 < (NewScheme2 constHash8 constHash8 []).digestSize)) ∧
    (NewScheme2 constHash8 constHash8 []).PrivateKeySize = 10 * constHash8.size ∧
    (NewScheme2 constHash8 constHash8 []).GenerateKeyPair =
      Except.error WotsError.wrongHashOutputSize :=
  generateKeyPair_validation (NewScheme2 constHash8 constHash8 [])
    constHash8 constHash8 [] (by decide)

/-- C7: for every scheme with digest size at least 2 (so Sign returns at
all), Sign returns the key-size-mismatch error iff the private key length
differs from PrivateKeySize(), returns the random-source error iff the
key length is right but the source cannot supply the digestSize nonce
bytes, and succeeds otherwise; PublicKeyFromPrivate returns an error
exactly when its input length differs from PrivateKeySize(). -/
theorem sign_error_conditions (s : Scheme) (pk pk2 msg : List Nat)
    (hds : 2 ≤ s.digestSize) :
    (s.Sign pk msg = some (Except.error WotsError.privateKeySizeMismatch) ↔
      pk.length ≠ s.PrivateKeySize) ∧
    (pk.length = s.PrivateKeySize →
      (s.Sign pk msg = some (Except.error WotsError.randReadError) ↔
        s.rand.length < s.digestSize)) ∧
    (pk.length = s.PrivateKeySize → s.digestSize ≤ s.rand.length →
      ∃ sig, s.Sign pk msg = some (Except.ok sig)) ∧
    (s.PublicKeyFromPrivate pk2 = Except.error WotsError.privateKeySizeMismatch ↔
      pk2.length ≠ s.PrivateKeySize) ∧
    (pk2.length = s.PrivateKeySize →
      ∃ pub, s.PublicKeyFromPrivate pk2 = Except.ok pub) := by
  have hok : pk.length = s.PrivateKeySize → s.digestSize ≤ s.rand.length →
      ∃ sig, s.Sign pk msg = some (Except.ok sig) := by
    intro hkeq hle
    have hread : readFull s.rand s.digestSize = some (s.rand.take s.digestSize) := by
      unfold readFull
      rw [if_pos hle]
    have h2r : 2 ≤ (s.rand.take s.digestSize).length := by
      rw [List.length_take]
      omega
    obtain ⟨d, hd⟩ := Option.isSome_iff_exists.mp
      (messageDigest_isSome s.hashFunc (s.rand.take s.digestSize) msg h2r)
    refine ⟨s.rand.take s.digestSize ++ signChains s.chainFunc s.blockSize d pk, ?_⟩
    unfold Scheme.Sign
    rw [if_neg (not_not_intro hkeq), hread]
    dsimp only
    rw [hd]
  have herr : pk.length = s.PrivateKeySize → s.rand.length < s.digestSize →
      s.Sign pk msg = some (Except.error WotsError.randReadError) := by
    intro hkeq hlt
    unfold Scheme.Sign
    rw [if_neg (not_not_intro hkeq)]
    unfold readFull
    rw [if_neg (by omega)]
  refine ⟨⟨?_, ?_⟩, ?_, hok, ⟨?_, ?_⟩, ?_⟩
  · intro hsig
    by_contra hkeq
    by_cases hle : s.digestSize ≤ s.rand.length
    · obtain ⟨sg, hsg⟩ := hok hkeq hle
      rw [hsg] at hsig
      simp at hsig
    · rw [herr hkeq (by omega)] at hsig
      simp at hsig
  · intro hne
    unfold Scheme.Sign
    rw [if_pos hne]
  · intro hkeq
    constructor
    · intro hsig
      by_contra hge
      rw [not_lt] at hge
      obtain ⟨sg, hsg⟩ := hok hkeq hge
      rw [hsg] at hsig
      simp at hsig
    · intro hlt
      exact herr hkeq hlt
  · intro herr2
    by_contra hkeq
    unfold Scheme.PublicKeyFromPrivate at herr2
    rw [if_neg (not_not_intro hkeq)] at herr2
    simp at herr2
  · intro hne
    unfold Scheme.PublicKeyFromPrivate
    rw [if_pos hne]
  · intro hkeq
    refine ⟨s.hashFunc.f (keyHashLoop s.chainFunc s.blockSize pk2.length pk2).flatten, ?_⟩
    unfold Scheme.PublicKeyFromPrivate
    rw [if_neg (not_not_intro hkeq)]

/-- Witness for C7 at a concrete scheme, keys and message. -/
theorem sign_error_conditions_witness :
    ((NewScheme2 constHash2 constHash2 [0, 0]).Sign (List.replicate 8 0) [] =
        some (Except.error WotsError.privateKeySizeMismatch) ↔
      (List.replicate 8 0).length ≠
        (NewScheme2 constHash2 constHash2 [0, 0]).PrivateKeySize) ∧
    ((List.replicate 8 0).length =
        (NewScheme2 constHash2 constHash2 [0, 0]).PrivateKeySize →
      ((NewScheme2 constHash2 constHash2 [0, 0]).Sign (List.replicate 8 0) [] =
          some (Except.error WotsError.randReadError) ↔
        ([0, 0] : List Nat).length <
          (NewScheme2 constHash2 constHash2 [0, 0]).digestSize)) ∧
    ((List.replicate 8 0).length =
        (NewScheme2 constHash2 constHash2 [0, 0]).PrivateKeySize →
      (NewScheme2 constHash2 constHash2 [0, 0]).digestSize ≤ ([0, 0] : List Nat).length →
      ∃ sig, (NewScheme2 constHash2 constHash2 [0, 0]).Sign (List.replicate 8 0) [] =
        some (Except.ok sig)) ∧
    ((NewScheme2 constHash2 constHash2 [0, 0]).PublicKeyFromPrivate [] =
        Except.error WotsError.privateKeySizeMismatch ↔
      ([] : List Nat).length ≠ (NewScheme2 constHash2 constHash2 [0, 0]).PrivateKeySize) ∧
    (([] : List Nat).length = (NewScheme2 constHash2 constHash2 [0, 0]).PrivateKeySize →
      ∃ pub, (NewScheme2 constHash2 constHash2 [0, 0]).PublicKeyFromPrivate [] =
        Except.ok pub) :=
  sign_error_conditions (NewScheme2 constHash2 constHash2 [0, 0])
    (List.replicate 8 0) [] [] (by decide)

theorem oldSignChains_isSome (chain : GoHash) (bs : Nat) :
    ∀ d b, d.length * bs ≤ b.length →
      ∃ out, oldSignChains chain bs d b = some out := by
  intro d
  induction d with
  | nil =>
    intro b _
    exact ⟨[], rfl⟩
  | cons v d ih =>
    intro b hb
    rw [List.length_cons, Nat.succ_mul] at hb
    have hbs2 : bs ≤ b.length := by omega
    have hd2 : d.length * bs ≤ (b.drop bs).length := by
      rw [List.length_drop]
      omega
    obtain ⟨out, hout⟩ := ih (b.drop bs) hd2
    refine ⟨hashBlock chain (b.take bs) v ++ out, ?_⟩
    show (if bs ≤ b.length then
        match oldSignChains chain bs d (b.drop bs) with
        | none => none
        | some rest => some (hashBlock chain (b.take bs) v ++ rest)
      else none) = _
    rw [if_pos hbs2, hout]

/-- C3 counterexample: in the current slice-based API (wots.go), Sign
takes the private key as a plain immutable byte-slice argument and never
zeroes or marks it, so a subsequent Sign call on the same key succeeds
instead of failing; at this concrete scheme and key, the first Sign
succeeds, and the claim that any subsequent Sign call on the same key
must then fail is false, because the subsequent identical call succeeds
as well. -/
theorem sign_not_consumed_cex :
    ¬ ((∃ sg, (NewScheme2 constHash2 constHash2 [0, 0]).Sign (List.replicate 8 0) [] =
          some (Except.ok sg)) →
        ¬ ∃ sg, (NewScheme2 constHash2 constHash2 [0, 0]).Sign (List.replicate 8 0) [] =
          some (Except.ok sg)) := by
  intro hcl
  have hp : ∃ sg, (NewScheme2 constHash2 constHash2 [0, 0]).Sign (List.replicate 8 0) [] =
      some (Except.ok sg) :=
    ⟨[0, 0, 0, 0, 0, 0, 0, 0, 0, 0], rfl⟩
  exact hcl hp hp

/-- C3 (amended): only the superseded struct-based API consumes the key:
there, after every successful Sign call the private-key bytes are
destroyed (zeroed and the field set to nil) and a subsequent Sign call on
the same key instance panics rather than reusing key material; the
current API's Sign leaves the caller-owned key bytes untouched. -/
theorem oldSign_consumes_key (s : OldScheme) (k : OldPrivateKey) (msg : List Nat)
    (hw : GoHash.Wf s.hashFunc) (hsz : s.blockSize = s.hashFunc.size)
    (hbs : 2 ≤ s.blockSize)
    (hkey : k.B.length = (s.blockSize + 2) * s.blockSize)
    (hrand : s.blockSize ≤ s.rand.length) :
    ∃ sig k2, s.Sign k msg = some (some sig, k2) ∧ k2.B = [] ∧
      s.Sign k2 msg = none := by
  have hread : readFull s.rand s.blockSize = some (s.rand.take s.blockSize) := by
    unfold readFull
    rw [if_pos hrand]
  have h2r : 2 ≤ (s.rand.take s.blockSize).length := by
    rw [List.length_take]
    omega
  obtain ⟨d, hd⟩ := Option.isSome_iff_exists.mp
    (messageDigest_isSome s.hashFunc (s.rand.take s.blockSize) msg h2r)
  have hdlen : d.length = s.blockSize + 2 := by
    rw [messageDigest_length s.hashFunc hw.1 _ msg d h2r hd, hsz]
  obtain ⟨out, hout⟩ := oldSignChains_isSome s.hashFunc s.blockSize d k.B
    (by rw [hdlen, hkey])
  refine ⟨s.rand.take s.blockSize ++ out, ⟨k.PublicKey, []⟩, ?_, rfl, ?_⟩
  · unfold OldScheme.Sign
    rw [hread]
    dsimp only
    rw [hd]
    dsimp only
    rw [hout]
  · unfold OldScheme.Sign
    rw [hread]
    dsimp only
    rw [hd]
    dsimp only
    have hdne : ∃ v d2, d = v :: d2 := by
      cases d with
      | nil => rw [List.length_nil] at hdlen; omega
      | cons v d2 => exact ⟨v, d2, rfl⟩
    obtain ⟨v, d2, rfl⟩ := hdne
    have hnone : oldSignChains s.hashFunc s.blockSize (v :: d2) ([] : List Nat) = none := by
      show (if s.blockSize ≤ ([] : List Nat).length then
          match oldSignChains s.hashFunc s.blockSize d2 (([] : List Nat).drop s.blockSize) with
          | none => none
          | some rest =>
            some (hashBlock s.hashFunc (([] : List Nat).take s.blockSize) v ++ rest)
        else none) = none
      rw [if_neg (by rw [List.length_nil]; omega)]
    rw [hnone]

/-- Witness for the amended C3 at a concrete superseded-API scheme and
fresh key. -/
theorem oldSign_consumes_key_witness :
    ∃ sig k2,
      OldScheme.Sign ⟨2, constHash2, [0, 0]⟩ ⟨[], List.replicate 8 0⟩ [] =
        some (some sig, k2) ∧ k2.B = [] ∧
      OldScheme.Sign ⟨2, constHash2, [0, 0]⟩ k2 [] = none :=
  oldSign_consumes_key ⟨2, constHash2, [0, 0]⟩ ⟨[], List.replicate 8 0⟩ []
    constHash2_Wf rfl (by decide) (by decide) (by decide)

end Wots
